import Mathlib

/-!
Verification of the `solver` repository (a generic adversarial/decision tree
search engine) against its natural-language specification.

The Rust source (`src/lib.rs`) is shallowly embedded below:

* `Mode`, `Possibility` mirror the Rust enums.
* The `Evaluator` structure bundles the `State` trait (`apply`, `changes`) and
  the `Evaluator` trait (`evaluate`, `mode`, `contemplate`) together with the
  `Value` operations the trait bounds require (`Mul<f64>` becomes `scale`,
  `PartialOrd::partial_cmp` becomes `pcmp`).  The weight type `W` is the model
  of `f64` weights; a value type with NaN-like incomparable elements is
  modelled by `Option` of an integer (`oqCmp`, `oqScale`).
* The memoization `Cache` (a `HashMap`) is modelled as an association list with
  most-recent-insertion-wins lookup, which matches `HashMap` insert/get
  observationally.
* Recursive Rust functions (`create`, `expand`, `evaluate`) become fuel-indexed
  total functions; `Err.outOfFuel` marks fuel exhaustion, `Err.fatal` marks a
  Rust panic (`panic!`, `unreachable!`, `.expect`).  Stateful code threads the
  cache explicitly; `&mut self` methods return the updated node.
* `Vec::sort_by` (a stable comparison sort whose comparator here can panic on
  incomparable values) is modelled by a stable insertion sort with a fallible
  comparator, and `Vec::pop` by `List.getLast?`.
-/

/-- Rust `Mode`: whether the search at a state prefers the largest or the
smallest propagated child value. -/
inductive Mode where
  | Minimize : Mode
  | Maximize : Mode
deriving DecidableEq

/-- Identifies which Rust panic site was hit. -/
inductive PanicId where
  /-- `panic!("cannot select on leaf")` in `Possibility::select`. -/
  | selectOnLeaf : PanicId
  /-- the `unreachable!()` inside the `sort_by` comparator of `Possibility::choose`,
  reached when `partial_cmp` returns `None`. -/
  | cmpUnreachable : PanicId
  /-- `.expect("There is at least one child.")` in `Possibility::evaluate`. -/
  | emptyChildren : PanicId
deriving DecidableEq

/-- Abnormal outcomes of the embedded code: either the fuel bound of the
embedding was reached, or the Rust code panics. -/
inductive Err where
  | outOfFuel : Err
  | fatal : PanicId → Err
deriving DecidableEq

/-- The `State` and `Evaluator` trait methods the core consumes, together with
the `Value` operations required by the trait bounds on `Evaluator::Value`. -/
structure Evaluator (S C V W : Type) where
  /-- `State::apply`. -/
  apply : S → C → S
  /-- `State::changes`: the finite list of `(weight, change)` transitions. -/
  changes : S → List (W × C)
  /-- `Value: Mul<f64>`: multiply a value by a weight. -/
  scale : V → W → V
  /-- `Value: PartialOrd`: `partial_cmp`. -/
  pcmp : V → V → Option Ordering
  /-- `Evaluator::evaluate`: score a state with no lookahead. -/
  evaluate : S → V
  /-- `Evaluator::mode`. -/
  mode : S → Mode
  /-- `Evaluator::contemplate`: the depth/resource guard. -/
  contemplate : S → Nat → Bool

/-- Rust `Possibility<E>`: a Leaf holds a state and its value, a Branch holds a
state and its `(Change, weight, child)` triples. -/
inductive Possibility (S C V W : Type) where
  | Leaf : S → V → Possibility S C V W
  | Branch : S → List (C × W × Possibility S C V W) → Possibility S C V W

/-- `Possibility::state`. -/
def Possibility.state {S C V W : Type} : Possibility S C V W → S
  | .Leaf s _ => s
  | .Branch s _ => s

/-- The memoization cache `HashMap<State, Possibility>`, as an association
list; the most recent insertion for a key wins on lookup. -/
abbrev Cache (S C V W : Type) : Type := List (S × Possibility S C V W)

/-- `HashMap::get`. -/
def Cache.lookup {S C V W : Type} [DecidableEq S] : Cache S C V W → S → Option (Possibility S C V W)
  | [], _ => none
  | (k, p) :: rest, s => if s = k then some p else Cache.lookup rest s

/-- `HashMap::insert` (later insertions shadow earlier ones on lookup). -/
def Cache.store {S C V W : Type} (cache : Cache S C V W) (s : S) (p : Possibility S C V W) :
    Cache S C V W :=
  (s, p) :: cache

section Engine

variable {S C V W : Type} [DecidableEq S] [DecidableEq C]

/-- The child-construction loop of `Possibility::create` / `Possibility::expand`:
`state.changes().map(|(weight, change)| (change, weight, create(state.apply(change), depth+1)))`,
threading the cache left to right.  `step` is the (fuel-limited) `create`. -/
def createList (E : Evaluator S C V W)
    (step : S → Cache S C V W → Nat → Except Err (Possibility S C V W × Cache S C V W))
    (st : S) : List (W × C) → Cache S C V W → Nat →
    Except Err (List (C × W × Possibility S C V W) × Cache S C V W)
  | [], cache, _ => .ok ([], cache)
  | (weight, change) :: rest, cache, depth =>
    match step (E.apply st change) cache (depth + 1) with
    | .error e => .error e
    | .ok (child, cache₁) =>
      match createList E step st rest cache₁ depth with
      | .error e => .error e
      | .ok (others, cache₂) => .ok ((change, weight, child) :: others, cache₂)

/-- One unfolding of `Possibility::create`, with `rec` standing for the
recursive calls on the child states. -/
def createStep (E : Evaluator S C V W)
    (rec : S → Cache S C V W → Nat → Except Err (Possibility S C V W × Cache S C V W))
    (state : S) (cache : Cache S C V W) (depth : Nat) :
    Except Err (Possibility S C V W × Cache S C V W) :=
  match Cache.lookup cache state with
  | some possibility => .ok (possibility, cache)
  | none =>
    let value := E.evaluate state
    if E.contemplate state depth then
      match createList E rec state (E.changes state) cache depth with
      | .error e => .error e
      | .ok (children, cache₁) =>
        let re : Possibility S C V W :=
          if children.isEmpty then .Leaf state value else .Branch state children
        .ok (re, Cache.store cache₁ state re)
    else
      .ok (.Leaf state (E.evaluate state), cache)

/-- `Possibility::create`, fuel-indexed. -/
def create (E : Evaluator S C V W) :
    Nat → S → Cache S C V W → Nat → Except Err (Possibility S C V W × Cache S C V W) :=
  Nat.rec (motive := fun _ => S → Cache S C V W → Nat → Except Err (Possibility S C V W × Cache S C V W))
    (fun _ _ _ => .error .outOfFuel)
    (fun _ ih => createStep E ih)

/-- The child-expansion loop of the Branch arm of `Possibility::expand`:
`for (_, _, child) in children { child.expand(e, cache, depth + 1) }`.
`step` is the (fuel-limited) `expand`. -/
def expandList
    (step : Possibility S C V W → Cache S C V W → Nat → Except Err (Possibility S C V W × Cache S C V W)) :
    List (C × W × Possibility S C V W) → Cache S C V W → Nat →
    Except Err (List (C × W × Possibility S C V W) × Cache S C V W)
  | [], cache, _ => .ok ([], cache)
  | (change, weight, child) :: rest, cache, depth =>
    match step child cache (depth + 1) with
    | .error e => .error e
    | .ok (child', cache₁) =>
      match expandList step rest cache₁ depth with
      | .error e => .error e
      | .ok (rest', cache₂) => .ok ((change, weight, child') :: rest', cache₂)

/-- One unfolding of `Possibility::expand`. -/
def expandStep (E : Evaluator S C V W)
    (recCreate : S → Cache S C V W → Nat → Except Err (Possibility S C V W × Cache S C V W))
    (recExpand : Possibility S C V W → Cache S C V W → Nat → Except Err (Possibility S C V W × Cache S C V W))
    (p : Possibility S C V W) (cache : Cache S C V W) (depth : Nat) :
    Except Err (Possibility S C V W × Cache S C V W) :=
  if E.contemplate p.state depth then
    match p with
    | .Leaf state value =>
      match createList E recCreate state (E.changes state) cache depth with
      | .error e => .error e
      | .ok (children, cache₁) =>
        if children.isEmpty then .ok (.Leaf state value, cache₁)
        else .ok (.Branch state children, cache₁)
    | .Branch state children =>
      match expandList recExpand children cache depth with
      | .error e => .error e
      | .ok (children', cache₁) => .ok (.Branch state children', cache₁)
  else
    .ok (p, cache)

/-- `Possibility::expand`, fuel-indexed. -/
def expand (E : Evaluator S C V W) :
    Nat → Possibility S C V W → Cache S C V W → Nat → Except Err (Possibility S C V W × Cache S C V W) :=
  Nat.rec (motive := fun _ => Possibility S C V W → Cache S C V W → Nat → Except Err (Possibility S C V W × Cache S C V W))
    (fun _ _ _ => .error .outOfFuel)
    (fun fuel ih => expandStep E (create E fuel) ih)

/-- The accumulator step of the fold in `Possibility::evaluate`: keep `cur` if
it is strictly better than the best so far under `mode` (`cur > acc` /
`cur < acc` via `partial_cmp`). -/
def foldStep (mode : Mode) (pcmp : V → V → Option Ordering) (acc : Option V) (cur : V) :
    Option V :=
  match acc with
  | none => some cur
  | some accVal =>
    match mode with
    | .Maximize => if pcmp cur accVal = some .gt then some cur else some accVal
    | .Minimize => if pcmp cur accVal = some .lt then some cur else some accVal

/-- The full fold of `Possibility::evaluate` over the scaled child values
(`fold(None, ...)`, first child seeds the accumulator). -/
def foldBest (mode : Mode) (pcmp : V → V → Option Ordering) (l : List V) : Option V :=
  l.foldl (foldStep mode pcmp) none

/-- The child-evaluation loop of the Branch arm of `Possibility::evaluate`:
`children.into_iter().map(|(_, weight, child)| child.evaluate(e, cache, depth+1) * *weight)`,
threading the cache and keeping the mutated children.  `ev` is the
(fuel-limited) `evaluate`. -/
def evalList (E : Evaluator S C V W)
    (ev : Possibility S C V W → Cache S C V W → Nat → Except Err (V × Possibility S C V W × Cache S C V W)) :
    List (C × W × Possibility S C V W) → Cache S C V W → Nat →
    Except Err (List V × List (C × W × Possibility S C V W) × Cache S C V W)
  | [], cache, _ => .ok ([], [], cache)
  | (change, weight, child) :: rest, cache, depth =>
    match ev child cache (depth + 1) with
    | .error e => .error e
    | .ok (v, child', cache₁) =>
      match evalList E ev rest cache₁ depth with
      | .error e => .error e
      | .ok (l, rest', cache₂) =>
        .ok (E.scale v weight :: l, (change, weight, child') :: rest', cache₂)

/-- One unfolding of `Possibility::evaluate`. -/
def evaluateStep (E : Evaluator S C V W)
    (recExpand : Possibility S C V W → Cache S C V W → Nat → Except Err (Possibility S C V W × Cache S C V W))
    (recEval : Possibility S C V W → Cache S C V W → Nat → Except Err (V × Possibility S C V W × Cache S C V W))
    (p : Possibility S C V W) (cache : Cache S C V W) (depth : Nat) :
    Except Err (V × Possibility S C V W × Cache S C V W) :=
  match (if E.contemplate p.state depth then recExpand p cache depth else .ok (p, cache)) with
  | .error e => .error e
  | .ok (q, cache₁) =>
    match q with
    | .Leaf state value => .ok (value, .Leaf state value, cache₁)
    | .Branch state children =>
      match evalList E recEval children cache₁ depth with
      | .error e => .error e
      | .ok (l, children', cache₂) =>
        match foldBest (E.mode state) E.pcmp l with
        | some v => .ok (v, .Branch state children', cache₂)
        | none => .error (.fatal .emptyChildren)

/-- `Possibility::evaluate`, fuel-indexed. -/
def evaluate (E : Evaluator S C V W) :
    Nat → Possibility S C V W → Cache S C V W → Nat → Except Err (V × Possibility S C V W × Cache S C V W) :=
  Nat.rec (motive := fun _ => Possibility S C V W → Cache S C V W → Nat → Except Err (V × Possibility S C V W × Cache S C V W))
    (fun _ _ _ => .error .outOfFuel)
    (fun fuel ih => evaluateStep E (expand E fuel) ih)

/-- The comparator passed to `heap.sort_by` in `Possibility::choose`:
`|(a, _), (b, _)| b.partial_cmp(a).unwrap_or_else(|| unreachable!())`.
It compares the second entry's value to the first (descending order) and
panics when `partial_cmp` returns `None`. -/
def cmpPair (E : Evaluator S C V W) (x y : V × C) : Except Err Ordering :=
  match E.pcmp y.1 x.1 with
  | some o => .ok o
  | none => .error (.fatal .cmpUnreachable)

/-- Stable insertion of one element into a list sorted ascending w.r.t. `cmp`
(the element goes after everything not greater than it). -/
def insertByCmp (cmp : (V × C) → (V × C) → Except Err Ordering) (x : V × C) :
    List (V × C) → Except Err (List (V × C))
  | [] => .ok [x]
  | y :: ys =>
    match cmp x y with
    | .error e => .error e
    | .ok o =>
      if o = Ordering.gt then
        match insertByCmp cmp x ys with
        | .error e => .error e
        | .ok zs => .ok (y :: zs)
      else
        .ok (x :: y :: ys)

/-- `Vec::sort_by`: a stable comparison sort whose comparator may panic,
modelled as a stable insertion sort. -/
def sortByCmp (cmp : (V × C) → (V × C) → Except Err Ordering) :
    List (V × C) → Except Err (List (V × C))
  | [] => .ok []
  | x :: xs =>
    match sortByCmp cmp xs with
    | .error e => .error e
    | .ok ys => insertByCmp cmp x ys

/-- The scoring loop of `Possibility::choose`: for each child push
`(child.evaluate(e, cache, 1) * weight, change)`, threading the cache and
keeping the mutated children. -/
def chooseList (E : Evaluator S C V W)
    (ev : Possibility S C V W → Cache S C V W → Nat → Except Err (V × Possibility S C V W × Cache S C V W)) :
    List (C × W × Possibility S C V W) → Cache S C V W →
    Except Err (List (V × C) × List (C × W × Possibility S C V W) × Cache S C V W)
  | [], cache => .ok ([], [], cache)
  | (change, weight, child) :: rest, cache =>
    match ev child cache 1 with
    | .error e => .error e
    | .ok (v, child', cache₁) =>
      match chooseList E ev rest cache₁ with
      | .error e => .error e
      | .ok (pairs, rest', cache₂) =>
        .ok ((E.scale v weight, change) :: pairs, (change, weight, child') :: rest', cache₂)

/-- `Possibility::choose`: expand at depth 0; `None` on a Leaf; on a Branch,
score every child at depth 1, sort the `(value, change)` vector descending by
value with the panicking comparator, and `pop` the last element of the sorted
vector (the comparator-wise greatest, i.e. the value-wise least). -/
def choose (E : Evaluator S C V W) (fuel : Nat) (p : Possibility S C V W) (cache : Cache S C V W) :
    Except Err (Option (V × C) × Possibility S C V W × Cache S C V W) :=
  match expand E fuel p cache 0 with
  | .error e => .error e
  | .ok (q, cache₁) =>
    match q with
    | .Leaf _ _ => .ok (none, q, cache₁)
    | .Branch state children =>
      match chooseList E (evaluate E fuel) children cache₁ with
      | .error e => .error e
      | .ok (pairs, children', cache₂) =>
        match sortByCmp (cmpPair E) pairs with
        | .error e => .error e
        | .ok sorted => .ok (sorted.getLast?, .Branch state children', cache₂)

/-- The linear search of `Possibility::select` for the first child whose
`Change` equals the requested one. -/
def findChild (change : C) : List (C × W × Possibility S C V W) → Option (Possibility S C V W)
  | [] => none
  | (c, _, child) :: rest => if c = change then some child else findChild change rest

/-- `Possibility::select`: expand at depth 0; panic on a Leaf; on a Branch,
replace the node by the first child matching the `Change`; when no child
matches, the loop falls through and the method returns with the node left as
the expanded Branch. -/
def select (E : Evaluator S C V W) (fuel : Nat) (change : C) (p : Possibility S C V W)
    (cache : Cache S C V W) : Except Err (Possibility S C V W × Cache S C V W) :=
  match expand E fuel p cache 0 with
  | .error e => .error e
  | .ok (q, cache₁) =>
    match q with
    | .Leaf _ _ => .error (.fatal .selectOnLeaf)
    | .Branch state children =>
      match findChild change children with
      | some child => .ok (child, cache₁)
      | none => .ok (.Branch state children, cache₁)

/-- `Possibility::new`: return the cached entry on a hit, otherwise a Leaf
valued by an immediate `evaluate`; never inserts. -/
def Possibility.new (E : Evaluator S C V W) (root : S) (cache : Cache S C V W) :
    Possibility S C V W :=
  match Cache.lookup cache root with
  | some possibility => possibility
  | none => .Leaf root (E.evaluate root)

/-- Rust `Solver<E>`: the façade owning the evaluator, the current root of the
possibility tree, and the cache. -/
structure Solver (S C V W : Type) where
  evaluator : Evaluator S C V W
  tree : Possibility S C V W
  cache : Cache S C V W

/-- `Solver::new`: fresh empty cache, root wrapped by `Possibility::new`. -/
def Solver.new (E : Evaluator S C V W) (root : S) : Solver S C V W :=
  { evaluator := E, tree := Possibility.new E root [], cache := [] }

/-- `Solver::state`. -/
def Solver.stateOf (sol : Solver S C V W) : S :=
  sol.tree.state

/-- `Solver::select`. -/
def Solver.selectMove (sol : Solver S C V W) (fuel : Nat) (change : C) :
    Except Err (Solver S C V W) :=
  match select sol.evaluator fuel change sol.tree sol.cache with
  | .error e => .error e
  | .ok (tree', cache') => .ok { sol with tree := tree', cache := cache' }

/-- `Solver::choose`. -/
def Solver.chooseMove (sol : Solver S C V W) (fuel : Nat) :
    Except Err (Option (V × C) × Solver S C V W) :=
  match choose sol.evaluator fuel sol.tree sol.cache with
  | .error e => .error e
  | .ok (r, tree', cache') => .ok (r, { sol with tree := tree', cache := cache' })

end Engine

/-!
Concrete instances used by witnesses and counterexamples: the spec's
adversarial 2-state toy (section 8): states `{A, B, C}`, `A` transitions to
`B` (weight 1) and `C` (weight 1), `B` and `C` terminal with values `1.0` and
`-1.0`, `mode(A) = Maximize`.
-/

/-- The toy state space `{A, B, C}`. -/
inductive TS where
  | A : TS
  | B : TS
  | C : TS
deriving DecidableEq

/-- The toy changes: `A → B`, `A → C`; `nil` is a change that is legal from no
state (used to exercise the no-matching-child path of `select`). -/
inductive TAct where
  | toB : TAct
  | toC : TAct
  | nil : TAct
deriving DecidableEq

/-- The toy evaluator over rational values: `evaluate(B) = 1`,
`evaluate(C) = -1`, everything maximizes, contemplation unbounded. -/
def toyE : Evaluator TS TAct ℤ ℤ where
  apply := fun s c =>
    match s, c with
    | .A, .toB => .B
    | .A, .toC => .C
    | s, _ => s
  changes := fun s =>
    match s with
    | .A => [(1, .toB), (1, .toC)]
    | _ => []
  scale := fun v w => v * w
  pcmp := fun a b => some (compare a b)
  evaluate := fun s =>
    match s with
    | .A => 0
    | .B => 1
    | .C => -1
  mode := fun _ => .Maximize
  contemplate := fun _ _ => true

/-- The toy evaluator with contemplation always refused (depth guard closed). -/
def toyStop : Evaluator TS TAct ℤ ℤ :=
  { toyE with contemplate := fun _ _ => false }

/-- A NaN-capable value: `none` models an f64 NaN, `some z` a finite f64. -/
abbrev OQ : Type := Option ℤ

/-- `Mul<f64>` on NaN-capable values: NaN is absorbing. -/
def oqScale (v : OQ) (w : ℤ) : OQ :=
  v.map (fun q => q * w)

/-- `f64::partial_cmp`: `None` as soon as either side is NaN. -/
def oqCmp (a b : OQ) : Option Ordering :=
  match a, b with
  | some x, some y => some (compare x y)
  | _, _ => none

/-- The toy evaluator over NaN-capable values, with `evaluate(C)` a NaN. -/
def toyNaN : Evaluator TS TAct OQ ℤ where
  apply := toyE.apply
  changes := toyE.changes
  scale := oqScale
  pcmp := oqCmp
  evaluate := fun s =>
    match s with
    | .A => some 0
    | .B => some 1
    | .C => none
  mode := fun _ => .Maximize
  contemplate := fun _ _ => true


/-!
Well-formedness predicates used as hypotheses of the theorems below.  They
hold trivially of the empty cache a `Solver` starts from and of a fresh Leaf.
-/

section WF

variable {S C V W : Type} [DecidableEq S] [DecidableEq C]

/-- Every cache entry is a Possibility describing exactly the keying state
(all insertions in the source are `cache.insert(state, re)` with
`re.state() == state`). -/
def StateWF (cache : Cache S C V W) : Prop :=
  ∀ t q, Cache.lookup cache t = some q → Possibility.state q = t

/-- Every cache entry keyed by a state with no transitions is a Leaf. -/
def LeafCacheWF (E : Evaluator S C V W) (cache : Cache S C V W) : Prop :=
  ∀ t q, Cache.lookup cache t = some q → E.changes t = [] → ∃ v, q = .Leaf t v

/-- The top level of a node is well-formed: each child of a Branch describes
the state reached by applying that child's Change to the branch state. -/
def TopWF (E : Evaluator S C V W) : Possibility S C V W → Prop
  | .Leaf _ _ => True
  | .Branch s cs => ∀ t ∈ cs, Possibility.state t.2.2 = E.apply s t.1

/-- `cache₂` extends `cache`: the operations only prepend entries
(`HashMap::insert` shadowing is modelled by the later cons winning). -/
def CacheExtends (cache cache₂ : Cache S C V W) : Prop :=
  ∃ ext, cache₂ = ext ++ cache

end WF

/-!
Theorems.  First the unfolding equations of the fuel-indexed functions, then
general lemmas, then one theorem per claim of the specification (with
witnesses / counterexamples on the concrete toy instances).
-/

section Theorems

variable {S C V W : Type} [DecidableEq S] [DecidableEq C]

theorem create_zero (E : Evaluator S C V W) (s : S) (cache : Cache S C V W) (depth : Nat) :
    create E 0 s cache depth = .error .outOfFuel := rfl

theorem create_succ (E : Evaluator S C V W) (fuel : Nat) (s : S) (cache : Cache S C V W)
    (depth : Nat) :
    create E (fuel + 1) s cache depth = createStep E (create E fuel) s cache depth := rfl

theorem expand_zero (E : Evaluator S C V W) (p : Possibility S C V W) (cache : Cache S C V W)
    (depth : Nat) :
    expand E 0 p cache depth = .error .outOfFuel := rfl

theorem expand_succ (E : Evaluator S C V W) (fuel : Nat) (p : Possibility S C V W)
    (cache : Cache S C V W) (depth : Nat) :
    expand E (fuel + 1) p cache depth =
      expandStep E (create E fuel) (expand E fuel) p cache depth := rfl

theorem evaluate_zero (E : Evaluator S C V W) (p : Possibility S C V W) (cache : Cache S C V W)
    (depth : Nat) :
    evaluate E 0 p cache depth = .error .outOfFuel := rfl

theorem evaluate_succ (E : Evaluator S C V W) (fuel : Nat) (p : Possibility S C V W)
    (cache : Cache S C V W) (depth : Nat) :
    evaluate E (fuel + 1) p cache depth =
      evaluateStep E (expand E fuel) (evaluate E fuel) p cache depth := rfl

/-- Claim C7: a cache hit in `create` returns the cached Possibility with the
cache left unchanged; the result is produced for an arbitrary evaluator and
with one unit of fuel, so no re-evaluation of the state and no child
construction can have taken place. -/
theorem create_cache_hit {cache : Cache S C V W} {s : S} {p : Possibility S C V W}
    (h : Cache.lookup cache s = some p) :
    ∀ (E : Evaluator S C V W) (fuel depth : Nat),
      create E (fuel + 1) s cache depth = .ok (p, cache) := by
  intro E fuel depth
  rw [create_succ]
  unfold createStep
  rw [h]

/-- Claim C7 witness: a concrete cache hit. -/
theorem create_cache_hit_witness :
    create toyE 1 TS.B [(TS.B, .Leaf .B 5)] 0 = .ok (.Leaf .B 5, [(TS.B, .Leaf .B 5)]) := by
  have h : Cache.lookup ([(TS.B, .Leaf .B 5)] : Cache TS TAct ℤ ℤ) TS.B = some (.Leaf .B 5) := rfl
  exact create_cache_hit h toyE 0 0

/-- Claim C8: on a cache miss with `contemplate` refusing, `create` returns a
Leaf carrying the state's immediate evaluation and the cache is left exactly
as it was (no entry is inserted). -/
theorem create_uncontemplated {E : Evaluator S C V W} {cache : Cache S C V W} {s : S}
    {depth : Nat} (h1 : Cache.lookup cache s = none) (h2 : E.contemplate s depth = false) :
    ∀ fuel, create E (fuel + 1) s cache depth = .ok (.Leaf s (E.evaluate s), cache) := by
  intro fuel
  rw [create_succ]
  unfold createStep
  rw [h1, h2]
  simp

/-- Claim C8 witness: concrete contemplate-limited `create`. -/
theorem create_uncontemplated_witness :
    create toyStop 3 TS.A [] 0 = .ok (.Leaf .A 0, []) := by
  have h1 : Cache.lookup ([] : Cache TS TAct ℤ ℤ) TS.A = none := rfl
  have h2 : toyStop.contemplate TS.A 0 = false := rfl
  exact create_uncontemplated h1 h2 2

theorem expand_leaf_no_moves {E : Evaluator S C V W} {s : S} (v : V) (cache : Cache S C V W)
    (depth : Nat) (h : E.changes s = []) :
    ∀ fuel, expand E (fuel + 1) (.Leaf s v) cache depth = .ok (.Leaf s v, cache) := by
  intro fuel
  rw [expand_succ]
  unfold expandStep
  cases hc : E.contemplate (Possibility.state (.Leaf s v : Possibility S C V W)) depth with
  | false => simp [hc]
  | true => simp [hc, h, createList]

/-- Claim C6: `choose` on a Leaf whose state has no transitions (the node
stays a Leaf after expansion) returns no recommendation. -/
theorem choose_no_moves {E : Evaluator S C V W} {s : S} (v : V) (cache : Cache S C V W)
    (h : E.changes s = []) :
    ∀ fuel, choose E (fuel + 1) (.Leaf s v) cache = .ok (none, .Leaf s v, cache) := by
  intro fuel
  unfold choose
  rw [expand_leaf_no_moves v cache 0 h fuel]

/-- Claim C6 witness: the terminal toy state `B`. -/
theorem choose_no_moves_witness :
    choose toyE 4 (.Leaf .B 1) [] = .ok (none, .Leaf .B 1, []) := by
  have h : toyE.changes TS.B = [] := rfl
  exact choose_no_moves 1 [] h 3

/-- Claim C1: on the spec's adversarial toy (root `A`, children `B` value `1`
and `C` value `-1`, weights `1`, `mode(A) = Maximize`), `choose` returns
`(-1, change_to_C)` — the smallest scaled child value — not `(1, change_to_B)`
as the specification requires: the code sorts the `(value, change)` vector in
descending order and then `Vec::pop`s the last (least) element. -/
theorem choose_toy_returns_minimum :
    choose toyE 6 (.Leaf .A 0) [] =
      .ok (some ((-1 : ℤ), TAct.toC),
        .Branch .A [(.toB, 1, .Leaf .B 1), (.toC, 1, .Leaf .C (-1))],
        [(TS.C, .Leaf .C (-1)), (TS.B, .Leaf .B 1)]) ∧
    ∀ r, choose toyE 6 (.Leaf .A 0) [] = .ok r → r.1 ≠ some ((1 : ℤ), TAct.toB) := by
  refine ⟨rfl, ?_⟩
  intro r hr
  have h0 : choose toyE 6 (.Leaf .A 0) [] =
      .ok (some ((-1 : ℤ), TAct.toC),
        .Branch .A [(.toB, 1, .Leaf .B 1), (.toC, 1, .Leaf .C (-1))],
        [(TS.C, .Leaf .C (-1)), (TS.B, .Leaf .B 1)]) := rfl
  rw [h0] at hr
  injection hr with hr
  subst hr
  decide

theorem findChild_eq_none {change : C} {cs : List (C × W × Possibility S C V W)}
    (hnm : ∀ t ∈ cs, t.1 ≠ change) : findChild change cs = none := by
  induction cs with
  | nil => rfl
  | cons hd tl ih =>
    obtain ⟨c, w, child⟩ := hd
    unfold findChild
    rw [if_neg (hnm (c, w, child) (by simp))]
    exact ih fun t ht => hnm t (List.mem_cons_of_mem _ ht)

/-- Claim C2 counterexample: `select` with a Change matching no child returns
normally (no panic); the node is left as the one-level expansion of the old
node and no child is selected. -/
theorem select_no_match_counter :
    select toyE 6 TAct.nil (.Leaf .A 0) [] =
      .ok (.Branch .A [(.toB, 1, .Leaf .B 1), (.toC, 1, .Leaf .C (-1))],
        [(TS.C, .Leaf .C (-1)), (TS.B, .Leaf .B 1)]) ∧
    ∀ e, select toyE 6 TAct.nil (.Leaf .A 0) [] ≠ .error e := by
  refine ⟨rfl, ?_⟩
  intro e he
  have h0 : select toyE 6 TAct.nil (.Leaf .A 0) [] =
      .ok (.Branch .A [(.toB, 1, .Leaf .B 1), (.toC, 1, .Leaf .C (-1))],
        [(TS.C, .Leaf .C (-1)), (TS.B, .Leaf .B 1)]) := rfl
  rw [h0] at he
  exact Except.noConfusion he

/-- Claim C2 (amended): when the node expands to a Branch and the given Change
equals no child's Change, `select` returns normally with the node left as the
expanded Branch (the matching loop falls through); only a node that remains a
Leaf makes `select` panic. -/
theorem select_no_match {E : Evaluator S C V W} {fuel : Nat} {change : C}
    {p : Possibility S C V W} {cache cache₁ : Cache S C V W} {s : S}
    {cs : List (C × W × Possibility S C V W)}
    (hx : expand E fuel p cache 0 = .ok (.Branch s cs, cache₁))
    (hnm : ∀ t ∈ cs, t.1 ≠ change) :
    select E fuel change p cache = .ok (.Branch s cs, cache₁) := by
  unfold select
  rw [hx]
  simp [findChild_eq_none hnm]

/-- Claim C2 witness: the amended behaviour on the toy instance. -/
theorem select_no_match_witness :
    select toyE 5 TAct.nil (.Leaf .A 0) [] =
      .ok (.Branch .A [(.toB, 1, .Leaf .B 1), (.toC, 1, .Leaf .C (-1))],
        [(TS.C, .Leaf .C (-1)), (TS.B, .Leaf .B 1)]) := by
  have hx : expand toyE 5 (.Leaf .A 0) [] 0 =
      .ok (.Branch .A [(.toB, 1, .Leaf .B 1), (.toC, 1, .Leaf .C (-1))],
        [(TS.C, .Leaf .C (-1)), (TS.B, .Leaf .B 1)]) := rfl
  have hnm : ∀ t ∈ [((TAct.toB : TAct), (1 : ℤ), (Possibility.Leaf TS.B 1 : Possibility TS TAct ℤ ℤ)),
      (.toC, 1, .Leaf .C (-1))], t.1 ≠ TAct.nil := by decide
  exact select_no_match hx hnm

/-- Claim C4 counterexample: with a `contemplate` that refuses expansion, a
state with a non-empty `changes()` list stays a Leaf after `expand`. -/
theorem expand_guard_counter :
    toyStop.changes .A = [(1, .toB), (1, .toC)] ∧
    expand toyStop 6 (.Leaf .A 0) [] 0 = .ok (.Leaf .A 0, []) ∧
    ∀ s cs cache₂, expand toyStop 6 (.Leaf .A 0) [] 0 ≠ .ok (.Branch s cs, cache₂) := by
  refine ⟨rfl, rfl, ?_⟩
  intro s cs cache₂ h
  have h0 : expand toyStop 6 (.Leaf .A 0) [] 0 = .ok (.Leaf .A 0, []) := rfl
  rw [h0] at h
  simp at h

theorem createList_shape {E : Evaluator S C V W}
    {step : S → Cache S C V W → Nat → Except Err (Possibility S C V W × Cache S C V W)}
    {st : S} :
    ∀ (l : List (W × C)) (cache : Cache S C V W) (depth : Nat) cs cache₂,
      createList E step st l cache depth = .ok (cs, cache₂) →
      List.map (fun t => t.1) cs = List.map (fun t => t.2) l := by
  intro l
  induction l with
  | nil =>
    intro cache depth cs cache₂ h
    unfold createList at h
    injection h with h
    injection h with h1 h2
    subst h1
    rfl
  | cons hd tl ih =>
    intro cache depth cs cache₂ h
    obtain ⟨w, c⟩ := hd
    unfold createList at h
    split at h
    · exact Except.noConfusion h
    · split at h
      · exact Except.noConfusion h
      · injection h with h
        injection h with h1 h2
        subst h1
        simpa using ih _ _ _ _ (by assumption)

/-- Claim C4 (amended): a state with an empty `changes()` list is represented
as a Leaf by `create` (assuming cache entries for moveless states are Leaves)
and is left a Leaf by `expand`; a state with a non-empty `changes()` list
whose expansion is permitted by `contemplate` at that (state, depth) becomes,
after one `expand` of its Leaf, a Branch with exactly one child per transition
carrying the same Changes in the same order. -/
theorem leaf_branch_tagging (E : Evaluator S C V W) :
    (∀ fuel (s : S) cache depth p cache₂, E.changes s = [] → LeafCacheWF E cache →
      create E (fuel + 1) s cache depth = .ok (p, cache₂) → ∃ v, p = .Leaf s v)
    ∧ (∀ fuel (s : S) (v : V) cache depth, E.changes s = [] →
      expand E (fuel + 1) (.Leaf s v) cache depth = .ok (.Leaf s v, cache))
    ∧ (∀ fuel (s : S) (v : V) cache depth q cache₂, E.changes s ≠ [] →
      E.contemplate s depth = true →
      expand E (fuel + 1) (.Leaf s v) cache depth = .ok (q, cache₂) →
      ∃ cs, q = .Branch s cs ∧
        List.map (fun t => t.1) cs = List.map (fun t => t.2) (E.changes s) ∧
        cs.length = (E.changes s).length) := by
  refine ⟨?_, ?_, ?_⟩
  · intro fuel s cache depth p cache₂ hch hwf h
    rw [create_succ] at h
    unfold createStep at h
    cases hl : Cache.lookup cache s with
    | some q =>
      rw [hl] at h
      injection h with h
      injection h with h1 h2
      exact (hwf s q hl hch).imp fun v hv => by rw [← h1, hv]
    | none =>
      rw [hl] at h
      cases hc : E.contemplate s depth with
      | false =>
        rw [hc] at h
        simp at h
        exact ⟨E.evaluate s, h.1.symm⟩
      | true =>
        rw [hc] at h
        rw [hch] at h
        simp [createList] at h
        exact ⟨E.evaluate s, h.1.symm⟩
  · intro fuel s v cache depth hch
    exact expand_leaf_no_moves v cache depth hch fuel
  · intro fuel s v cache depth q cache₂ hch hc h
    rw [expand_succ] at h
    unfold expandStep at h
    rw [show Possibility.state (.Leaf s v : Possibility S C V W) = s from rfl, hc] at h
    simp only [if_true] at h
    split at h
    · exact Except.noConfusion h
    · rename_i children cache₁ hcl
      have hmap := createList_shape _ _ _ _ _ hcl
      have hne : children ≠ [] := by
        intro hemp
        rw [hemp] at hmap
        exact hch (by simpa using hmap.symm)
      rw [if_neg (by simpa [List.isEmpty_iff] using hne)] at h
      injection h with h
      injection h with h1 h2
      exact ⟨children, h1.symm, hmap, by
        have := congrArg List.length hmap
        simpa using this⟩

/-- Claim C4 witness: on the toy, `A` (two transitions, contemplation allowed)
expands to a Branch with the two Changes in order, and the terminal `B`
(empty transitions) is created as a Leaf and left a Leaf by `expand`. -/
theorem leaf_branch_tagging_witness :
    (∃ v, (Possibility.Leaf TS.B (1 : ℤ) : Possibility TS TAct ℤ ℤ) = .Leaf .B v) ∧
    expand toyE 3 (.Leaf TS.B 1) [] 0 = .ok (.Leaf TS.B 1, []) ∧
    ∃ cs, (Possibility.Branch TS.A [(TAct.toB, (1 : ℤ), Possibility.Leaf TS.B 1),
        (TAct.toC, 1, Possibility.Leaf TS.C (-1))] : Possibility TS TAct ℤ ℤ) = .Branch .A cs ∧
      List.map (fun t => t.1) cs = List.map (fun t => t.2) (toyE.changes .A) ∧
      cs.length = (toyE.changes .A).length := by
  obtain ⟨h1, h2, h3⟩ := leaf_branch_tagging toyE
  refine ⟨?_, h2 2 .B 1 [] 0 rfl, ?_⟩
  · exact h1 2 .B [] 0 _ _ rfl (fun t q h => Option.noConfusion h) rfl
  · exact h3 2 .A 0 [] 0 _ _ (by decide) rfl rfl

theorem lookup_extends_ne {cache cache₂ : Cache S C V W} (hext : CacheExtends cache cache₂)
    {t : S} (hne : Cache.lookup cache₂ t ≠ Cache.lookup cache t) :
    ∃ p, Cache.lookup cache₂ t = some p := by
  obtain ⟨ext, rfl⟩ := hext
  induction ext with
  | nil => exact absurd rfl hne
  | cons hd tl ih =>
    obtain ⟨k, p⟩ := hd
    by_cases h : t = k
    · exact ⟨p, by simp [Cache.lookup, h]⟩
    · have heq : Cache.lookup ((k, p) :: tl ++ cache) t = Cache.lookup (tl ++ cache) t := by
        simp [Cache.lookup, h]
      rw [heq] at hne ⊢
      exact ih hne

theorem cacheExtends_refl (cache : Cache S C V W) : CacheExtends cache cache :=
  ⟨[], rfl⟩

theorem cacheExtends_trans {c₁ c₂ c₃ : Cache S C V W} (h1 : CacheExtends c₁ c₂)
    (h2 : CacheExtends c₂ c₃) : CacheExtends c₁ c₃ := by
  obtain ⟨e1, rfl⟩ := h1
  obtain ⟨e2, rfl⟩ := h2
  exact ⟨e2 ++ e1, (List.append_assoc e2 e1 c₁).symm⟩

theorem cacheExtends_store {c₁ c₂ : Cache S C V W} (h : CacheExtends c₁ c₂) (s : S)
    (p : Possibility S C V W) : CacheExtends c₁ (Cache.store c₂ s p) := by
  obtain ⟨e, rfl⟩ := h
  exact ⟨(s, p) :: e, rfl⟩

theorem stateWF_store {cache : Cache S C V W} {s : S} {p : Possibility S C V W}
    (h : StateWF cache) (hp : Possibility.state p = s) : StateWF (Cache.store cache s p) := by
  intro t q hl
  unfold Cache.store Cache.lookup at hl
  split at hl
  · rename_i hts
    cases hl
    subst hts
    exact hp
  · exact h t q hl

theorem createList_wf {E : Evaluator S C V W}
    {step : S → Cache S C V W → Nat → Except Err (Possibility S C V W × Cache S C V W)} {st : S}
    (hstep : ∀ s cache depth q cache₂, StateWF cache → step s cache depth = .ok (q, cache₂) →
      Possibility.state q = s ∧ StateWF cache₂ ∧ CacheExtends cache cache₂) :
    ∀ (l : List (W × C)) cache depth cs cache₂, StateWF cache →
      createList E step st l cache depth = .ok (cs, cache₂) →
      StateWF cache₂ ∧ CacheExtends cache cache₂ ∧
      ∀ t ∈ cs, Possibility.state t.2.2 = E.apply st t.1 := by
  intro l
  induction l with
  | nil =>
    intro cache depth cs cache₂ hwf h
    injection h with h
    injection h with h1 h2
    subst h1 h2
    exact ⟨hwf, cacheExtends_refl cache, by simp⟩
  | cons hd tl ih =>
    intro cache depth cs cache₂ hwf h
    obtain ⟨w, c⟩ := hd
    unfold createList at h
    split at h
    · exact Except.noConfusion h
    · rename_i child cache₁ hchild
      split at h
      · exact Except.noConfusion h
      · rename_i others cacheo hothers
        injection h with h
        injection h with h1 h2
        subst h1 h2
        obtain ⟨hq, hwf₁, hext₁⟩ := hstep _ _ _ _ _ hwf hchild
        obtain ⟨hwf₂, hext₂, hcs⟩ := ih _ _ _ _ hwf₁ hothers
        refine ⟨hwf₂, cacheExtends_trans hext₁ hext₂, ?_⟩
        intro t ht
        rcases List.mem_cons.mp ht with rfl | ht
        · simpa using hq
        · exact hcs t ht

theorem create_wf {E : Evaluator S C V W} :
    ∀ fuel (s : S) cache depth q cache₂, StateWF cache →
      create E fuel s cache depth = .ok (q, cache₂) →
      Possibility.state q = s ∧ StateWF cache₂ ∧ CacheExtends cache cache₂ := by
  intro fuel
  induction fuel with
  | zero => intro s cache depth q cache₂ _ h; exact Except.noConfusion h
  | succ fuel ih =>
    intro s cache depth q cache₂ hwf h
    rw [create_succ] at h
    unfold createStep at h
    split at h
    · rename_i p hl
      injection h with h
      injection h with h1 h2
      subst h1 h2
      exact ⟨hwf _ _ hl, hwf, cacheExtends_refl cache⟩
    · rename_i hl
      split at h
      · split at h
        · exact Except.noConfusion h
        · rename_i children cache₁ hcl
          obtain ⟨hwf₁, hext₁, _⟩ := createList_wf (fun a b c d e => ih a b c d e) _ _ _ _ _ hwf hcl
          injection h with h
          injection h with h1 h2
          subst h1 h2
          constructor
          · split <;> rfl
          · constructor
            · exact stateWF_store hwf₁ (by split <;> rfl)
            · exact cacheExtends_store hext₁ _ _
      · injection h with h
        injection h with h1 h2
        subst h1 h2
        exact ⟨rfl, hwf, cacheExtends_refl cache⟩

theorem expandList_shape
    {step : Possibility S C V W → Cache S C V W → Nat → Except Err (Possibility S C V W × Cache S C V W)} :
    ∀ (l : List (C × W × Possibility S C V W)) cache depth l' cache₂,
      expandList step l cache depth = .ok (l', cache₂) →
      l'.length = l.length ∧ List.map (fun t => t.1) l' = List.map (fun t => t.1) l := by
  intro l
  induction l with
  | nil =>
    intro cache depth l' cache₂ h
    injection h with h
    injection h with h1 h2
    subst h1
    exact ⟨rfl, rfl⟩
  | cons hd tl ih =>
    intro cache depth l' cache₂ h
    obtain ⟨c, w, child⟩ := hd
    unfold expandList at h
    split at h
    · exact Except.noConfusion h
    · split at h
      · exact Except.noConfusion h
      · rename_i rest' cacher hrest
        injection h with h
        injection h with h1 h2
        subst h1
        obtain ⟨hlen, hmap⟩ := ih _ _ _ _ hrest
        simp [hlen, hmap]

theorem expandList_wf
    {step : Possibility S C V W → Cache S C V W → Nat → Except Err (Possibility S C V W × Cache S C V W)}
    (hstep : ∀ p cache depth q cache₂, StateWF cache → step p cache depth = .ok (q, cache₂) →
      Possibility.state q = Possibility.state p ∧ StateWF cache₂ ∧ CacheExtends cache cache₂) :
    ∀ (l : List (C × W × Possibility S C V W)) cache depth l' cache₂, StateWF cache →
      expandList step l cache depth = .ok (l', cache₂) →
      StateWF cache₂ ∧ CacheExtends cache cache₂ ∧
      ∀ (P : C → S → Prop), (∀ t ∈ l, P t.1 (Possibility.state t.2.2)) →
        ∀ t ∈ l', P t.1 (Possibility.state t.2.2) := by
  intro l
  induction l with
  | nil =>
    intro cache depth l' cache₂ hwf h
    injection h with h
    injection h with h1 h2
    subst h1 h2
    exact ⟨hwf, cacheExtends_refl cache, fun P _ t ht => absurd ht (List.not_mem_nil t)⟩
  | cons hd tl ih =>
    intro cache depth l' cache₂ hwf h
    obtain ⟨c, w, child⟩ := hd
    unfold expandList at h
    split at h
    · exact Except.noConfusion h
    · rename_i child' cache₁ hchild
      split at h
      · exact Except.noConfusion h
      · rename_i rest' cacher hrest
        injection h with h
        injection h with h1 h2
        subst h1 h2
        obtain ⟨hst, hwf₁, hext₁⟩ := hstep _ _ _ _ _ hwf hchild
        obtain ⟨hwf₂, hext₂, hP⟩ := ih _ _ _ _ hwf₁ hrest
        refine ⟨hwf₂, cacheExtends_trans hext₁ hext₂, ?_⟩
        intro P hPl t ht
        rcases List.mem_cons.mp ht with rfl | ht
        · simpa [hst] using hPl (c, w, child) (by simp)
        · exact hP P (fun u hu => hPl u (List.mem_cons_of_mem _ hu)) t ht

theorem expand_wf {E : Evaluator S C V W} :
    ∀ fuel (p : Possibility S C V W) cache depth q cache₂, StateWF cache →
      expand E fuel p cache depth = .ok (q, cache₂) →
      Possibility.state q = Possibility.state p ∧ StateWF cache₂ ∧ CacheExtends cache cache₂ ∧
      (TopWF E p → TopWF E q) := by
  intro fuel
  induction fuel with
  | zero => intro p cache depth q cache₂ _ h; exact Except.noConfusion h
  | succ fuel ih =>
    intro p cache depth q cache₂ hwf h
    rw [expand_succ] at h
    unfold expandStep at h
    split at h
    · split at h
      · rename_i s v
        split at h
        · exact Except.noConfusion h
        · rename_i children cache₁ hcl
          obtain ⟨hwf₁, hext₁, hch⟩ := createList_wf (create_wf fuel) _ _ _ _ _ hwf hcl
          split at h
          · injection h with h
            injection h with h1 h2
            subst h1 h2
            exact ⟨rfl, hwf₁, hext₁, fun _ => trivial⟩
          · injection h with h
            injection h with h1 h2
            subst h1 h2
            exact ⟨rfl, hwf₁, hext₁, fun _ => hch⟩
      · rename_i s cs
        split at h
        · exact Except.noConfusion h
        · rename_i cs' cache₁ hel
          obtain ⟨hwf₁, hext₁, hP⟩ := expandList_wf (fun a b c d e hw hh => ⟨(ih a b c d e hw hh).1, (ih a b c d e hw hh).2.1, (ih a b c d e hw hh).2.2.1⟩) _ _ _ _ _ hwf hel
          injection h with h
          injection h with h1 h2
          subst h1 h2
          refine ⟨rfl, hwf₁, hext₁, fun htop => ?_⟩
          intro t ht
          exact hP (fun c x => x = E.apply _ c) (fun u hu => htop u hu) t ht
    · injection h with h
      injection h with h1 h2
      subst h1 h2
      exact ⟨rfl, hwf, cacheExtends_refl cache, fun htop => htop⟩

theorem findChild_mem {change : C} :
    ∀ {cs : List (C × W × Possibility S C V W)},
      change ∈ List.map (fun t => t.1) cs → ∃ child, findChild change cs = some child := by
  intro cs
  induction cs with
  | nil => intro h; simp at h
  | cons hd tl ih =>
    intro h
    obtain ⟨c, w, q⟩ := hd
    by_cases hc : c = change
    · exact ⟨q, by simp [findChild, hc]⟩
    · have h' : change ∈ List.map (fun t => t.1) tl := by
        simp only [List.map_cons, List.mem_cons] at h
        rcases h with h1 | h1
        · exact absurd h1.symm hc
        · exact h1
      obtain ⟨child, hchild⟩ := ih h'
      exact ⟨child, by simp [findChild, hc, hchild]⟩

theorem findChild_state {E : Evaluator S C V W} {s : S} {change : C}
    {child : Possibility S C V W} :
    ∀ {cs : List (C × W × Possibility S C V W)}, TopWF E (.Branch s cs) →
      findChild change cs = some child →
      Possibility.state child = E.apply s change := by
  intro cs
  induction cs with
  | nil => intro _ h; exact Option.noConfusion h
  | cons hd tl ih =>
    intro htop h
    obtain ⟨c, w, q⟩ := hd
    unfold findChild at h
    split at h
    · rename_i hc
      cases h
      have hmem := htop (c, w, child) (by simp)
      simpa [hc] using hmem
    · exact ih (fun t ht => htop t (List.mem_cons_of_mem _ ht)) h

/-- Claim C5: when the Change is among the children produced by one level of
expansion of the solver's root, `select` succeeds and the new root state is
`apply` of the old root state at that Change (assuming the cache maps states
to Possibilities for those states, and the root's top level is well-formed;
both hold for a fresh solver). -/
theorem select_consistency {sol : Solver S C V W} {fuel : Nat} {change : C} {s : S}
    {cs : List (C × W × Possibility S C V W)} {cache₁ : Cache S C V W}
    (hwf : StateWF sol.cache) (htop : TopWF sol.evaluator sol.tree)
    (hx : expand sol.evaluator fuel sol.tree sol.cache 0 = .ok (.Branch s cs, cache₁))
    (hmem : change ∈ List.map (fun t => t.1) cs) :
    ∃ sol', Solver.selectMove sol fuel change = .ok sol' ∧
      Solver.stateOf sol' = sol.evaluator.apply (Solver.stateOf sol) change := by
  obtain ⟨hstate, _, _, htop'⟩ := expand_wf fuel _ _ _ _ _ hwf hx
  obtain ⟨child, hfc⟩ := findChild_mem hmem
  refine ⟨{ sol with tree := child, cache := cache₁ }, ?_, ?_⟩
  · unfold Solver.selectMove select
    rw [hx]
    simp [hfc]
  · have hcs : Possibility.state child = sol.evaluator.apply s change :=
      findChild_state (htop' htop) hfc
    unfold Solver.stateOf
    simp only [hcs]
    rw [show s = Possibility.state sol.tree from hstate]

/-- Claim C5 witness: a fresh solver on the toy roots at `A`; selecting `toB`
advances the root state to `apply A toB = B`. -/
theorem select_consistency_witness :
    ∃ sol', Solver.selectMove (Solver.new toyE .A) 5 TAct.toB = .ok sol' ∧
      Solver.stateOf sol' = toyE.apply (Solver.stateOf (Solver.new toyE .A)) TAct.toB := by
  have hwf : StateWF (Solver.new toyE .A).cache := fun t q h => Option.noConfusion h
  have htop : TopWF (Solver.new toyE .A).evaluator (Solver.new toyE .A).tree := trivial
  have hx : expand (Solver.new toyE .A).evaluator 5 (Solver.new toyE .A).tree
      (Solver.new toyE .A).cache 0 =
      .ok (.Branch .A [(.toB, 1, .Leaf .B 1), (.toC, 1, .Leaf .C (-1))],
        [(TS.C, .Leaf .C (-1)), (TS.B, .Leaf .B 1)]) := rfl
  have hmem : TAct.toB ∈ List.map (fun t => t.1)
      [((TAct.toB : TAct), (1 : ℤ), (Possibility.Leaf TS.B 1 : Possibility TS TAct ℤ ℤ)),
        (.toC, 1, .Leaf .C (-1))] := by decide
  exact select_consistency hwf htop hx hmem

/-- Claim C10: the cache effects of `expand` are exactly those of the `create`
calls on newly encountered descendant states.  With contemplation refused,
`expand` leaves the cache untouched; upgrading a Leaf in place, the final
cache is precisely the cache produced by the child `create` loop — the
resulting Branch is not stored under the node's own state by `expand` itself;
recursing into a Branch, the final cache is precisely the children's.  Any key
whose binding changed now maps to a Possibility for exactly that key (a
`create`-inserted entry). -/
theorem expand_cache_frame (E : Evaluator S C V W) :
    (∀ fuel (p : Possibility S C V W) cache depth, E.contemplate p.state depth = false →
      expand E (fuel + 1) p cache depth = .ok (p, cache))
    ∧ (∀ fuel (s : S) (v : V) cache depth q cache₂, E.contemplate s depth = true →
      expand E (fuel + 1) (.Leaf s v) cache depth = .ok (q, cache₂) →
      ∃ cs, createList E (create E fuel) s (E.changes s) cache depth = .ok (cs, cache₂) ∧
        ((cs.isEmpty = true ∧ q = .Leaf s v) ∨ (cs.isEmpty = false ∧ q = .Branch s cs)))
    ∧ (∀ fuel (s : S) cs cache depth q cache₂, E.contemplate s depth = true →
      expand E (fuel + 1) (.Branch s cs) cache depth = .ok (q, cache₂) →
      ∃ cs', expandList (expand E fuel) cs cache depth = .ok (cs', cache₂) ∧ q = .Branch s cs')
    ∧ (∀ fuel (p : Possibility S C V W) cache depth q cache₂, StateWF cache →
      expand E fuel p cache depth = .ok (q, cache₂) →
      ∀ t, Cache.lookup cache₂ t ≠ Cache.lookup cache t →
        ∃ p', Cache.lookup cache₂ t = some p' ∧ Possibility.state p' = t) := by
  refine ⟨?_, ?_, ?_, ?_⟩
  · intro fuel p cache depth hc
    rw [expand_succ]
    unfold expandStep
    rw [hc]
    simp
  · intro fuel s v cache depth q cache₂ hc h
    rw [expand_succ] at h
    unfold expandStep at h
    rw [show Possibility.state (.Leaf s v : Possibility S C V W) = s from rfl, hc] at h
    simp only [if_true] at h
    split at h
    · exact Except.noConfusion h
    · rename_i children cache₁ hcl
      refine ⟨children, ?_, ?_⟩
      · split at h
        · injection h with h
          injection h with h1 h2
          subst h2
          exact hcl
        · injection h with h
          injection h with h1 h2
          subst h2
          exact hcl
      · split at h
        · rename_i hemp
          injection h with h
          injection h with h1 h2
          exact Or.inl ⟨hemp, h1.symm⟩
        · rename_i hemp
          injection h with h
          injection h with h1 h2
          exact Or.inr ⟨by simpa using hemp, h1.symm⟩
  · intro fuel s cs cache depth q cache₂ hc h
    rw [expand_succ] at h
    unfold expandStep at h
    rw [show Possibility.state (.Branch s cs : Possibility S C V W) = s from rfl, hc] at h
    simp only [if_true] at h
    split at h
    · exact Except.noConfusion h
    · rename_i cs' cache₁ hel
      injection h with h
      injection h with h1 h2
      subst h2
      exact ⟨cs', hel, h1.symm⟩
  · intro fuel p cache depth q cache₂ hwf h t hne
    obtain ⟨_, hwf₂, hext, _⟩ := expand_wf fuel _ _ _ _ _ hwf h
    obtain ⟨p', hp'⟩ := lookup_extends_ne hext hne
    exact ⟨p', hp', hwf₂ t p' hp'⟩

/-- Claim C10 witness: expanding the fresh Leaf for toy state `A`, the final
cache is exactly the child-creation cache; it holds `B` and `C` but no entry
for `A` itself (the upgraded Branch is not stored). -/
theorem expand_cache_frame_witness :
    (∃ cs, createList toyE (create toyE 4) TS.A (toyE.changes .A) [] 0 =
        .ok (cs, [(TS.C, .Leaf .C (-1)), (TS.B, .Leaf .B 1)]) ∧
        ((cs.isEmpty = true ∧
            (Possibility.Branch TS.A [(TAct.toB, (1 : ℤ), Possibility.Leaf TS.B 1),
              (TAct.toC, 1, Possibility.Leaf TS.C (-1))] : Possibility TS TAct ℤ ℤ) =
              .Leaf .A 0) ∨
         (cs.isEmpty = false ∧
            (Possibility.Branch TS.A [(TAct.toB, (1 : ℤ), Possibility.Leaf TS.B 1),
              (TAct.toC, 1, Possibility.Leaf TS.C (-1))] : Possibility TS TAct ℤ ℤ) =
              .Branch .A cs))) ∧
    Cache.lookup ([(TS.C, Possibility.Leaf TS.C (-1)), (TS.B, Possibility.Leaf TS.B 1)] :
      Cache TS TAct ℤ ℤ) TS.A = none ∧
    Cache.lookup ([(TS.C, Possibility.Leaf TS.C (-1)), (TS.B, Possibility.Leaf TS.B 1)] :
      Cache TS TAct ℤ ℤ) TS.B = some (.Leaf .B 1) :=
  ⟨(expand_cache_frame toyE).2.1 4 .A 0 [] 0 _ _ rfl rfl, rfl, rfl⟩

theorem foldStep_max_eq {E : Evaluator S C V W} [LinearOrder V]
    (hp : ∀ a b : V, E.pcmp a b = some (compare a b)) (a x : V) :
    foldStep .Maximize E.pcmp (some a) x = some (max a x) := by
  simp only [foldStep, hp]
  by_cases h : a < x
  · rw [if_pos (by simpa [compare_gt_iff_gt] using h), max_eq_right h.le]
  · rw [if_neg (by simpa [compare_gt_iff_gt] using h), max_eq_left (not_lt.mp h)]

theorem foldStep_min_eq {E : Evaluator S C V W} [LinearOrder V]
    (hp : ∀ a b : V, E.pcmp a b = some (compare a b)) (a x : V) :
    foldStep .Minimize E.pcmp (some a) x = some (min a x) := by
  simp only [foldStep, hp]
  by_cases h : x < a
  · rw [if_pos (by simpa [compare_lt_iff_lt] using h), min_eq_right h.le]
  · rw [if_neg (by simpa [compare_lt_iff_lt] using h), min_eq_left (not_lt.mp h)]

theorem foldBest_max_eq {E : Evaluator S C V W} [LinearOrder V]
    (hp : ∀ a b : V, E.pcmp a b = some (compare a b)) :
    ∀ (l : List V) (a : V),
      List.foldl (foldStep .Maximize E.pcmp) (some a) l = some (List.foldl max a l) := by
  intro l
  induction l with
  | nil => intro a; rfl
  | cons x xs ih =>
    intro a
    rw [List.foldl_cons, foldStep_max_eq hp, List.foldl_cons]
    exact ih (max a x)

theorem foldBest_min_eq {E : Evaluator S C V W} [LinearOrder V]
    (hp : ∀ a b : V, E.pcmp a b = some (compare a b)) :
    ∀ (l : List V) (a : V),
      List.foldl (foldStep .Minimize E.pcmp) (some a) l = some (List.foldl min a l) := by
  intro l
  induction l with
  | nil => intro a; rfl
  | cons x xs ih =>
    intro a
    rw [List.foldl_cons, foldStep_min_eq hp, List.foldl_cons]
    exact ih (min a x)

theorem foldl_max_spec {A : Type} [LinearOrder A] :
    ∀ (l : List A) (a : A), (List.foldl max a l = a ∨ List.foldl max a l ∈ l) ∧
      a ≤ List.foldl max a l ∧ ∀ x ∈ l, x ≤ List.foldl max a l := by
  intro l
  induction l with
  | nil => intro a; exact ⟨Or.inl rfl, le_refl a, by simp⟩
  | cons x xs ih =>
    intro a
    rw [List.foldl_cons]
    obtain ⟨hmem, hle, hbound⟩ := ih (max a x)
    refine ⟨?_, le_trans (le_max_left a x) hle, ?_⟩
    · rcases hmem with h | h
      · rcases max_choice a x with hm | hm
        · exact Or.inl (h.trans hm)
        · exact Or.inr (by rw [h, hm]; simp)
      · exact Or.inr (List.mem_cons_of_mem _ h)
    · intro y hy
      rcases List.mem_cons.mp hy with rfl | hy
      · exact le_trans (le_max_right a y) hle
      · exact hbound y hy

theorem foldl_min_spec {A : Type} [LinearOrder A] :
    ∀ (l : List A) (a : A), (List.foldl min a l = a ∨ List.foldl min a l ∈ l) ∧
      List.foldl min a l ≤ a ∧ ∀ x ∈ l, List.foldl min a l ≤ x := by
  intro l
  induction l with
  | nil => intro a; exact ⟨Or.inl rfl, le_refl a, by simp⟩
  | cons x xs ih =>
    intro a
    rw [List.foldl_cons]
    obtain ⟨hmem, hle, hbound⟩ := ih (min a x)
    refine ⟨?_, le_trans hle (min_le_left a x), ?_⟩
    · rcases hmem with h | h
      · rcases min_choice a x with hm | hm
        · exact Or.inl (h.trans hm)
        · exact Or.inr (by rw [h, hm]; simp)
      · exact Or.inr (List.mem_cons_of_mem _ h)
    · intro y hy
      rcases List.mem_cons.mp hy with rfl | hy
      · exact le_trans hle (min_le_right a y)
      · exact hbound y hy

theorem expand_branch_shape {E : Evaluator S C V W} {fuel : Nat} {s : S}
    {cs : List (C × W × Possibility S C V W)} {cache : Cache S C V W} {depth : Nat}
    {q : Possibility S C V W} {cache₂ : Cache S C V W}
    (h : expand E fuel (.Branch s cs) cache depth = .ok (q, cache₂)) :
    ∃ cs', q = .Branch s cs' ∧ cs'.length = cs.length := by
  cases fuel with
  | zero => exact Except.noConfusion h
  | succ fuel =>
    rw [expand_succ] at h
    unfold expandStep at h
    cases hc : E.contemplate (Possibility.state (.Branch s cs : Possibility S C V W)) depth with
    | true =>
      rw [hc] at h
      simp only [if_true] at h
      split at h
      · exact Except.noConfusion h
      · rename_i cs' cache₁ hel
        injection h with h
        injection h with h1 h2
        exact ⟨cs', h1.symm, (expandList_shape _ _ _ _ _ hel).1⟩
    | false =>
      rw [hc] at h
      simp only [Bool.false_eq_true, if_false] at h
      injection h with h
      injection h with h1 h2
      exact ⟨cs, h1.symm, rfl⟩

theorem evalList_len {E : Evaluator S C V W}
    {ev : Possibility S C V W → Cache S C V W → Nat → Except Err (V × Possibility S C V W × Cache S C V W)} :
    ∀ (l : List (C × W × Possibility S C V W)) cache depth vals l' cache₂,
      evalList E ev l cache depth = .ok (vals, l', cache₂) → vals.length = l.length := by
  intro l
  induction l with
  | nil =>
    intro cache depth vals l' cache₂ h
    injection h with h
    injection h with h1 h2
    subst h1
    rfl
  | cons hd tl ih =>
    intro cache depth vals l' cache₂ h
    obtain ⟨c, w, child⟩ := hd
    unfold evalList at h
    split at h
    · exact Except.noConfusion h
    · split at h
      · exact Except.noConfusion h
      · rename_i vrest rest' cacher hrest
        injection h with h
        injection h with h1 h2
        subst h1
        simpa using ih _ _ _ _ _ hrest

/-- Claim C3: on a Branch with non-empty children, `evaluate` (whose value
comparisons are a total order) returns exactly the extreme of the scaled child
evaluations `evaluate(child, depth+1) * weight` — the maximum under Maximize,
the minimum under Minimize, with the first child seeding the fold — and the
returned value is one of the scaled child values (the branch state's own
immediate `evaluate(state)` is not added to or blended with it). -/
theorem evaluate_branch_extreme [LinearOrder V] {E : Evaluator S C V W}
    (hp : ∀ a b : V, E.pcmp a b = some (compare a b))
    {fuel depth : Nat} {s : S} {cs : List (C × W × Possibility S C V W)}
    {cache cache₂ : Cache S C V W} {v : V} {q : Possibility S C V W}
    (hcs : cs ≠ [])
    (hev : evaluate E (fuel + 1) (.Branch s cs) cache depth = .ok (v, q, cache₂)) :
    ∃ cs₁ cache₁ l cs₂,
      (if E.contemplate (Possibility.state (.Branch s cs : Possibility S C V W)) depth then
          expand E fuel (.Branch s cs) cache depth
        else .ok (.Branch s cs, cache)) = .ok (.Branch s cs₁, cache₁) ∧
      evalList E (evaluate E fuel) cs₁ cache₁ depth = .ok (l, cs₂, cache₂) ∧
      q = .Branch s cs₂ ∧ l ≠ [] ∧ v ∈ l ∧
      (E.mode s = .Maximize → ∀ x ∈ l, x ≤ v) ∧
      (E.mode s = .Minimize → ∀ x ∈ l, v ≤ x) := by
  rw [evaluate_succ] at hev
  unfold evaluateStep at hev
  split at hev
  · exact Except.noConfusion hev
  · rename_i q₀ cache₁ hm
    have hq₀ : ∃ cs₁, q₀ = .Branch s cs₁ ∧ cs₁.length = cs.length := by
      by_cases hc : E.contemplate (Possibility.state (.Branch s cs : Possibility S C V W)) depth
      · rw [if_pos hc] at hm
        exact expand_branch_shape hm
      · rw [if_neg hc] at hm
        injection hm with hm
        injection hm with h1 h2
        exact ⟨cs, h1.symm, rfl⟩
    obtain ⟨cs₁, rfl, hlen⟩ := hq₀
    simp only [] at hev
    split at hev
    · exact Except.noConfusion hev
    · rename_i l cs₂ cache₂' hel
      split at hev
      · rename_i v₀ hfold
        injection hev with hev
        injection hev with h1 hev
        injection hev with h2 h3
        subst h1 h3
        have hllen : l.length = cs.length := by
          rw [evalList_len _ _ _ _ _ _ hel, hlen]
        have hlne : l ≠ [] := by
          intro hemp
          rw [hemp] at hllen
          exact hcs (List.eq_nil_of_length_eq_zero hllen.symm)
        refine ⟨cs₁, cache₁, l, cs₂, hm, hel, h2.symm, hlne, ?_⟩
        obtain ⟨x, xs, rfl⟩ := List.exists_cons_of_ne_nil hlne
        cases hmode : E.mode s with
        | Maximize =>
          rw [hmode] at hfold
          unfold foldBest at hfold
          rw [List.foldl_cons] at hfold
          have hseed : foldStep Mode.Maximize E.pcmp none x = some x := rfl
          rw [hseed, foldBest_max_eq hp] at hfold
          injection hfold with hfold
          obtain ⟨hmem, hle, hbound⟩ := foldl_max_spec xs x
          subst hfold
          refine ⟨?_, ?_, ?_⟩
          · rcases hmem with h | h
            · rw [h]; simp
            · exact List.mem_cons_of_mem _ h
          · intro _ y hy
            rcases List.mem_cons.mp hy with rfl | hy
            · exact hle
            · exact hbound y hy
          · intro hcontra
            exact Mode.noConfusion hcontra
        | Minimize =>
          rw [hmode] at hfold
          unfold foldBest at hfold
          rw [List.foldl_cons] at hfold
          have hseed : foldStep Mode.Minimize E.pcmp none x = some x := rfl
          rw [hseed, foldBest_min_eq hp] at hfold
          injection hfold with hfold
          obtain ⟨hmem, hle, hbound⟩ := foldl_min_spec xs x
          subst hfold
          refine ⟨?_, ?_, ?_⟩
          · rcases hmem with h | h
            · rw [h]; simp
            · exact List.mem_cons_of_mem _ h
          · intro hcontra
            exact Mode.noConfusion hcontra
          · intro _ y hy
            rcases List.mem_cons.mp hy with rfl | hy
            · exact hle
            · exact hbound y hy
      · exact Except.noConfusion hev

/-- Claim C3 witness: the toy Branch at `A` with children `B` (scaled value 1)
and `C` (scaled value -1) under Maximize propagates 1, the maximum. -/
theorem evaluate_branch_extreme_witness :
    ∃ cs₁ cache₁ l cs₂,
      (if toyE.contemplate (Possibility.state (.Branch .A [(.toB, 1, .Leaf .B 1),
            (.toC, 1, .Leaf .C (-1))] : Possibility TS TAct ℤ ℤ)) 0 then
          expand toyE 5 (.Branch .A [(.toB, 1, .Leaf .B 1), (.toC, 1, .Leaf .C (-1))]) [] 0
        else .ok (.Branch .A [(.toB, 1, .Leaf .B 1), (.toC, 1, .Leaf .C (-1))], [])) =
        .ok (.Branch .A cs₁, cache₁) ∧
      evalList toyE (evaluate toyE 5) cs₁ cache₁ 0 = .ok (l, cs₂, []) ∧
      (.Branch .A [(.toB, 1, .Leaf .B 1), (.toC, 1, .Leaf .C (-1))] : Possibility TS TAct ℤ ℤ) =
        .Branch .A cs₂ ∧ l ≠ [] ∧ (1 : ℤ) ∈ l ∧
      (toyE.mode .A = .Maximize → ∀ x ∈ l, x ≤ (1 : ℤ)) ∧
      (toyE.mode .A = .Minimize → ∀ x ∈ l, (1 : ℤ) ≤ x) := by
  have hcs : [((TAct.toB : TAct), (1 : ℤ), (Possibility.Leaf TS.B 1 : Possibility TS TAct ℤ ℤ)),
      (.toC, 1, .Leaf .C (-1))] ≠ [] := by simp
  have hev : evaluate toyE 6 (.Branch .A [(.toB, 1, .Leaf .B 1), (.toC, 1, .Leaf .C (-1))]) [] 0 =
      .ok (1, .Branch .A [(.toB, 1, .Leaf .B 1), (.toC, 1, .Leaf .C (-1))], []) := rfl
  exact evaluate_branch_extreme (fun a b => rfl) hcs hev

theorem oqCmp_none_left (b : OQ) : oqCmp none b = none := by
  cases b <;> rfl

theorem oqCmp_none_right (a : OQ) : oqCmp a none = none := by
  cases a <;> rfl

theorem oqCmp_eq_none {a b : OQ} (h : oqCmp a b = none) : a = none ∨ b = none := by
  cases a <;> cases b <;> simp_all [oqCmp]

theorem oqCmp_isSome {a b : OQ} (h : (oqCmp a b).isSome) : a.isSome ∧ b.isSome := by
  cases a <;> cases b <;> simp_all [oqCmp]

theorem sortByCmp_err {cmp : (V × C) → (V × C) → Except Err Ordering}
    (hcmp : ∀ x y e, cmp x y = .error e → e = .fatal .cmpUnreachable) :
    ∀ {l : List (V × C)} {e}, sortByCmp cmp l = .error e → e = .fatal .cmpUnreachable := by
  have hins : ∀ (ys : List (V × C)) (x : V × C) e,
      insertByCmp cmp x ys = .error e → e = .fatal .cmpUnreachable := by
    intro ys
    induction ys with
    | nil => intro x e h; exact Except.noConfusion h
    | cons y ys ih =>
      intro x e h
      unfold insertByCmp at h
      split at h
      · rename_i e' hcy
        injection h with h
        subst h
        exact hcmp _ _ _ hcy
      · split at h
        · split at h
          · rename_i e' hrec
            injection h with h
            subst h
            exact ih _ _ hrec
          · exact Except.noConfusion h
        · exact Except.noConfusion h
  intro l
  induction l with
  | nil => intro e h; exact Except.noConfusion h
  | cons x xs ih =>
    intro e h
    unfold sortByCmp at h
    split at h
    · rename_i e' hrec
      injection h with h
      subst h
      exact ih hrec
    · rename_i ys hys
      exact hins ys x e h

theorem sortByCmp_length {cmp : (V × C) → (V × C) → Except Err Ordering} :
    ∀ {l l' : List (V × C)}, sortByCmp cmp l = .ok l' → l'.length = l.length := by
  have hins : ∀ (ys : List (V × C)) (x : V × C) zs,
      insertByCmp cmp x ys = .ok zs → zs.length = ys.length + 1 := by
    intro ys
    induction ys with
    | nil =>
      intro x zs h
      injection h with h
      subst h
      rfl
    | cons y ys ih =>
      intro x zs h
      unfold insertByCmp at h
      split at h
      · exact Except.noConfusion h
      · split at h
        · split at h
          · exact Except.noConfusion h
          · rename_i ws hrec
            injection h with h
            subst h
            simpa using ih _ _ hrec
        · injection h with h
          subst h
          rfl
  intro l
  induction l with
  | nil =>
    intro l' h
    injection h with h
    subst h
    rfl
  | cons x xs ih =>
    intro l' h
    unfold sortByCmp at h
    split at h
    · exact Except.noConfusion h
    · rename_i ys hys
      rw [hins ys x l' h, ih hys]
      rfl

theorem sortByCmp_nan {E : Evaluator S C OQ W} (hp : ∀ a b, E.pcmp a b = oqCmp a b) :
    ∀ (l : List (OQ × C)), 2 ≤ l.length → (∃ x ∈ l, x.1 = none) →
      sortByCmp (cmpPair E) l = .error (.fatal .cmpUnreachable) := by
  have hcmpe : ∀ (x y : OQ × C) e, cmpPair E x y = .error e → e = .fatal .cmpUnreachable := by
    intro x y e h
    unfold cmpPair at h
    split at h
    · exact Except.noConfusion h
    · injection h with h
      exact h.symm
  intro l
  induction l with
  | nil => intro h; simp at h
  | cons x xs ih =>
    intro hlen hex
    unfold sortByCmp
    cases hsort : sortByCmp (cmpPair E) xs with
    | error e => rw [sortByCmp_err hcmpe hsort]
    | ok ys =>
      by_cases hx : x.1 = none
      · have hys : 1 ≤ ys.length := by
          rw [sortByCmp_length hsort]
          simpa using Nat.le_of_succ_le_succ hlen
        cases ys with
        | nil => simp at hys
        | cons z zs =>
          have hcz : cmpPair E x z = .error (.fatal .cmpUnreachable) := by
            unfold cmpPair
            rw [hp, hx, oqCmp_none_right]
          unfold insertByCmp
          rw [hcz]
      · have hex' : ∃ y ∈ xs, y.1 = none := by
          rcases hex with ⟨y, hy, hy1⟩
          rcases List.mem_cons.mp hy with rfl | hy
          · exact absurd hy1 hx
          · exact ⟨y, hy, hy1⟩
        by_cases hxs2 : 2 ≤ xs.length
        · rw [ih hxs2 hex'] at hsort
          exact Except.noConfusion hsort
        · obtain ⟨y, hy, hy1⟩ := hex'
          have hxs1 : xs.length = 1 := by
            have : 1 ≤ xs.length := List.length_pos.mpr (List.ne_nil_of_mem hy)
            omega
          obtain ⟨y', hxs⟩ : ∃ y', xs = [y'] := by
            cases xs with
            | nil => simp at hxs1
            | cons a t =>
              cases t with
              | nil => exact ⟨a, rfl⟩
              | cons b t' => simp at hxs1
          subst hxs
          have hy'1 : y'.1 = none := by
            rcases List.mem_cons.mp hy with rfl | hy0
            · exact hy1
            · simp at hy0
          have hys : ys = [y'] := by
            have h0 : sortByCmp (cmpPair E) [y'] = .ok [y'] := rfl
            rw [h0] at hsort
            injection hsort with hsort
            exact hsort.symm
          subst hys
          have hcy : cmpPair E x y' = .error (.fatal .cmpUnreachable) := by
            unfold cmpPair
            rw [hp, hy'1, oqCmp_none_left]
          unfold insertByCmp
          rw [hcy]

theorem insertByCmp_total {E : Evaluator S C OQ W} (hp : ∀ a b, E.pcmp a b = oqCmp a b)
    {x : OQ × C} (hx : x.1.isSome) :
    ∀ {ys : List (OQ × C)}, (∀ y ∈ ys, (y.1).isSome) →
      ∃ zs, insertByCmp (cmpPair E) x ys = .ok zs := by
  intro ys
  induction ys with
  | nil => intro _; exact ⟨[x], rfl⟩
  | cons y ys ih =>
    intro hall
    have hy := hall y (by simp)
    obtain ⟨a, ha⟩ := Option.isSome_iff_exists.mp hx
    obtain ⟨b, hb⟩ := Option.isSome_iff_exists.mp hy
    have hcmp : cmpPair E x y = .ok (compare b a) := by
      unfold cmpPair
      rw [hp, ha, hb]
      rfl
    unfold insertByCmp
    rw [hcmp]
    by_cases hgt : compare b a = Ordering.gt
    · obtain ⟨zs, hzs⟩ := ih (fun u hu => hall u (List.mem_cons_of_mem _ hu))
      exact ⟨y :: zs, by simp [hgt, hzs]⟩
    · exact ⟨x :: y :: ys, by simp [hgt]⟩

theorem insertByCmp_mem {cmp : (V × C) → (V × C) → Except Err Ordering} {x : V × C} :
    ∀ {ys zs : List (V × C)}, insertByCmp cmp x ys = .ok zs → ∀ z ∈ zs, z = x ∨ z ∈ ys := by
  intro ys
  induction ys with
  | nil =>
    intro zs h z hz
    injection h with h
    subst h
    simp at hz
    exact Or.inl hz
  | cons y ys ih =>
    intro zs h z hz
    unfold insertByCmp at h
    split at h
    · exact Except.noConfusion h
    · split at h
      · split at h
        · exact Except.noConfusion h
        · rename_i ws hrec
          injection h with h
          subst h
          rcases List.mem_cons.mp hz with rfl | hz
          · exact Or.inr (by simp)
          · rcases ih hrec z hz with h1 | h1
            · exact Or.inl h1
            · exact Or.inr (List.mem_cons_of_mem _ h1)
      · injection h with h
        subst h
        rcases List.mem_cons.mp hz with rfl | hz
        · exact Or.inl rfl
        · exact Or.inr hz

theorem sortByCmp_mem {cmp : (V × C) → (V × C) → Except Err Ordering} :
    ∀ {l l' : List (V × C)}, sortByCmp cmp l = .ok l' → ∀ z ∈ l', z ∈ l := by
  intro l
  induction l with
  | nil =>
    intro l' h z hz
    injection h with h
    subst h
    simp at hz
  | cons x xs ih =>
    intro l' h z hz
    unfold sortByCmp at h
    split at h
    · exact Except.noConfusion h
    · rename_i ys hys
      rcases insertByCmp_mem h z hz with h1 | h1
      · exact h1 ▸ List.mem_cons_self x xs
      · exact List.mem_cons_of_mem _ (ih hys z h1)

theorem sortByCmp_total {E : Evaluator S C OQ W} (hp : ∀ a b, E.pcmp a b = oqCmp a b) :
    ∀ {l : List (OQ × C)}, (∀ x ∈ l, (x.1).isSome) →
      ∃ l', sortByCmp (cmpPair E) l = .ok l' := by
  intro l
  induction l with
  | nil => intro _; exact ⟨[], rfl⟩
  | cons x xs ih =>
    intro hall
    obtain ⟨ys, hys⟩ := ih (fun u hu => hall u (List.mem_cons_of_mem _ hu))
    have hysmem : ∀ y ∈ ys, (y.1 : OQ).isSome := fun y hy =>
      hall y (List.mem_cons_of_mem _ (sortByCmp_mem hys y hy))
    obtain ⟨zs, hzs⟩ := insertByCmp_total hp (hall x (by simp)) hysmem
    refine ⟨zs, ?_⟩
    unfold sortByCmp
    simp only [hys, hzs]

/-- Claim C9: over the NaN-capable value model of `f64`, if the scaled child
values gathered by `choose` contain a pair (at distinct positions) on which
`partial_cmp` returns `None`, the sort comparator hits its `unreachable!()`
and `choose` halts with that panic instead of returning; when every pairwise
comparison at distinct positions is defined, the panic is unreachable and
`choose` returns normally. -/
theorem choose_incomparable {E : Evaluator S C OQ W}
    (hp : ∀ a b, E.pcmp a b = oqCmp a b)
    {fuel : Nat} {p : Possibility S C OQ W} {cache cache₁ cache₂ : Cache S C OQ W}
    {s : S} {cs cs' : List (C × W × Possibility S C OQ W)} {pairs : List (OQ × C)}
    (hx : expand E fuel p cache 0 = .ok (.Branch s cs, cache₁))
    (he : chooseList E (evaluate E fuel) cs cache₁ = .ok (pairs, cs', cache₂)) :
    ((∃ i j : Fin pairs.length, i ≠ j ∧ E.pcmp (pairs.get i).1 (pairs.get j).1 = none) →
      choose E fuel p cache = .error (.fatal .cmpUnreachable))
    ∧ ((∀ i j : Fin pairs.length, i ≠ j → (E.pcmp (pairs.get i).1 (pairs.get j).1).isSome) →
      ∃ r, choose E fuel p cache = .ok r) := by
  constructor
  · rintro ⟨i, j, hij, hnone⟩
    have hlen2 : 2 ≤ pairs.length := by
      by_contra hlt
      push_neg at hlt
      have hi := i.isLt
      have hj := j.isLt
      exact hij (Fin.ext (by omega))
    have hex : ∃ x ∈ pairs, x.1 = none := by
      rw [hp] at hnone
      rcases oqCmp_eq_none hnone with h | h
      · exact ⟨pairs.get i, List.get_mem pairs i.1 i.2, h⟩
      · exact ⟨pairs.get j, List.get_mem pairs j.1 j.2, h⟩
    have hsort := sortByCmp_nan hp pairs hlen2 hex
    unfold choose
    simp only [hx, he, hsort]
  · intro hall
    have hres : ∃ sorted, sortByCmp (cmpPair E) pairs = .ok sorted := by
      cases hpl : pairs with
      | nil => exact ⟨[], rfl⟩
      | cons x rest =>
        cases hrl : rest with
        | nil => exact ⟨[x], rfl⟩
        | cons y rest' =>
          refine sortByCmp_total hp ?_
          intro z hz
          have hz' : z ∈ pairs := by rw [hpl, hrl]; exact hz
          obtain ⟨i, hi⟩ := List.mem_iff_get.mp hz'
          have hlen2 : 2 ≤ pairs.length := by
            rw [hpl, hrl]
            simp
          by_cases hi0 : i.val = 0
          · have hj : (1 : Nat) < pairs.length := by omega
            have hd := hall i ⟨1, hj⟩ (by
              intro hcontra
              have := congrArg Fin.val hcontra
              simp at this
              omega)
            rw [hp] at hd
            rw [hi] at hd
            exact (oqCmp_isSome hd).1
          · have hj : (0 : Nat) < pairs.length := by omega
            have hd := hall i ⟨0, hj⟩ (by
              intro hcontra
              have := congrArg Fin.val hcontra
              simp at this
              omega)
            rw [hp] at hd
            rw [hi] at hd
            exact (oqCmp_isSome hd).1
    obtain ⟨sorted, hsort⟩ := hres
    refine ⟨(sorted.getLast?, .Branch s cs', cache₂), ?_⟩
    unfold choose
    simp only [hx, he, hsort]

/-- Claim C9 witness: on the toy with `evaluate(C)` a NaN, `choose` on `A`
panics at the comparator. -/
theorem choose_incomparable_witness :
    choose toyNaN 5 (.Leaf .A (some 0)) [] = .error (.fatal .cmpUnreachable) := by
  have hx : expand toyNaN 5 (.Leaf .A (some 0)) [] 0 =
      .ok (.Branch .A [(.toB, 1, .Leaf .B (some 1)), (.toC, 1, .Leaf .C none)],
        [(TS.C, .Leaf .C none), (TS.B, .Leaf .B (some 1))]) := by rfl
  have he : chooseList toyNaN (evaluate toyNaN 5)
      [(.toB, 1, .Leaf .B (some 1)), (.toC, 1, .Leaf .C none)]
      [(TS.C, .Leaf .C none), (TS.B, .Leaf .B (some 1))] =
      .ok ([(some 1, .toB), (none, .toC)],
        [(.toB, 1, .Leaf .B (some 1)), (.toC, 1, .Leaf .C none)],
        [(TS.C, .Leaf .C none), (TS.B, .Leaf .B (some 1))]) := by rfl
  have h := (choose_incomparable (fun a b => rfl) hx he).1
  exact h ⟨⟨0, by decide⟩, ⟨1, by decide⟩, by decide, by decide⟩

end Theorems
